import Mathlib

/-!
Shallow embedding of `src/instagram_demo.py`: a small Instagram-analytics
pipeline (loader, engagement calculator, hashtag aggregator, time-of-day
aggregator, caption quality checker) over an in-memory table of posts.
All machine arithmetic in the script is integer counts and exact ratios of
them, modelled with `ℕ` and `ℚ`; strings are ASCII in the data the script
processes, and the character predicates below model Python's regex classes
on that ASCII fragment.
-/

/-- ASCII word character, Python's regex class `\w` (letters, digits and the
underscore). -/
def isWordChar (c : Char) : Bool := c.isAlphanum || c == '_'

/-- Sentence-terminal punctuation, the regex character class `[.!?]`. -/
def isTerminal (c : Char) : Bool := c == '.' || c == '!' || c == '?'

/-- Scanner state for `re.sub(r"#\w+", "", s)`: `afterHash` means a `#` has
been read but not yet emitted (the pattern needs at least one word character
after it to match); `inTag` means the scanner is inside the word-character
run of a matched hashtag, which is being deleted (`\w+` is greedy). -/
inductive HashState where
  | normal
  | afterHash
  | inTag
deriving DecidableEq

/-- The left-to-right scanner for `re.sub(r"#\w+", "", s)`: a pending `#`
turns out to start a hashtag exactly when a word character follows, in which
case the `#` and the maximal word run after it are dropped; otherwise the `#`
is emitted unchanged. -/
def dropHTAux : HashState → List Char → List Char
  | .normal, [] => []
  | .afterHash, [] => ['#']
  | .inTag, [] => []
  | .normal, c :: cs =>
    if c = '#' then dropHTAux .afterHash cs else c :: dropHTAux .normal cs
  | .afterHash, c :: cs =>
    if isWordChar c then dropHTAux .inTag cs
    else if c = '#' then '#' :: dropHTAux .afterHash cs
    else '#' :: c :: dropHTAux .normal cs
  | .inTag, c :: cs =>
    if isWordChar c then dropHTAux .inTag cs
    else if c = '#' then dropHTAux .afterHash cs
    else c :: dropHTAux .normal cs

/-- `re.sub(r"#\w+", "", s)` on the character list: each `#` that is followed
by at least one word character is dropped together with the maximal run of
word characters after it. -/
def dropHashtags (l : List Char) : List Char := dropHTAux .normal l

/-- Run collector: `cur` is the (reversed) run of `p`-characters read so far;
a failing character closes the run. -/
def tokenizeAux (p : Char → Bool) : List Char → List Char → List (List Char)
  | cur, [] => if cur.isEmpty then [] else [cur.reverse]
  | cur, c :: cs =>
    if p c then tokenizeAux p (c :: cur) cs
    else if cur.isEmpty then tokenizeAux p [] cs
    else cur.reverse :: tokenizeAux p [] cs

/-- The maximal runs of characters satisfying `p`, in order.  With
`p = isWordChar` this is `re.findall(r"\b\w+\b", s)` (the word tokens); with
`p c = !(isTerminal c)` it is the list of nonempty segments produced by
`re.split(r"[.!?]+", s)` — splitting on runs of terminators and dropping empty
segments coincide. -/
def tokenize (p : Char → Bool) (l : List Char) : List (List Char) :=
  tokenizeAux p [] l

/-- Python `str.split(",")`: split at every comma, keeping empty pieces
(`"".split(",")` is `[""]`, `"a,,b".split(",")` is `["a","","b"]`). -/
def splitComma : List Char → List (List Char)
  | [] => [[]]
  | c :: cs =>
    if c = ',' then [] :: splitComma cs
    else
      match splitComma cs with
      | [] => [[c]]
      | t :: ts => (c :: t) :: ts

/-- Python `str.lower()`: lower-case each character (the data is ASCII, where
this is exactly per-character lower-casing). -/
def pyLower (s : String) : String := ⟨s.data.map Char.toLower⟩

/-- Python `str.strip()`: remove leading and trailing whitespace characters. -/
def pyStripL (l : List Char) : List Char :=
  ((l.dropWhile Char.isWhitespace).reverse.dropWhile Char.isWhitespace).reverse

/-- `str.strip()` on a string. -/
def pyStrip (s : String) : String := ⟨pyStripL s.data⟩

/-- The hashtag parsing applied per row by `load_data`:
`[h.strip() for h in str(x).split(",") if h.strip()]` — split the comma-joined
text, strip each piece, and keep the pieces that are nonempty after
stripping. -/
def parseHashtags (s : String) : List String :=
  ((splitComma s.data).map (fun l => (⟨pyStripL l⟩ : String))).filter (fun h => h ≠ "")

/-- One loaded post row (the `load_data` output): the `Post` caption text, the
numeric columns, the parsed `Hashtags` list, and the parsed `Timestamp`
modelled as a second count, so that pandas' `dt.hour` is
`timestamp / 3600 % 24`. -/
structure Post where
  post : String
  likes : ℕ
  comments : ℕ
  followers : ℕ
  hashtags : List String
  timestamp : ℕ
deriving DecidableEq

/-- The `compute_engagement` row formula `(Likes + Comments) / Followers`.
pandas evaluates it with IEEE float division, which yields the non-finite
value `inf` (or `NaN` for `0/0`) when `Followers = 0`; `ℚ` has no non-finite
values, so the rate is an `Option` with `none` standing for the non-finite
result and `some` for every ordinary (finite) number. -/
def engagementRate (p : Post) : Option ℚ :=
  if p.followers = 0 then none
  else some (((p.likes : ℚ) + p.comments) / p.followers)

/-- `compute_engagement`: the same rows with the `EngagementRate` column
added (the function works on a `df.copy()`; the input table is untouched). -/
def compute_engagement (df : List Post) : List (Post × Option ℚ) :=
  df.map fun p => (p, engagementRate p)

/-- One `Counter` insertion: bump the existing entry for the tag, or append a
fresh entry at the end (Python dicts enumerate keys in first-insertion
order). -/
def addTag (acc : List (String × ℕ)) (t : String) : List (String × ℕ) :=
  if acc.any (fun e => e.1 = t) then
    acc.map (fun e => if e.1 = t then (e.1, e.2 + 1) else e)
  else acc ++ [(t, 1)]

/-- `Counter(all_tags).items()`: the (tag, count) pairs, keys in first-seen
order. -/
def counterItems (tags : List String) : List (String × ℕ) :=
  tags.foldl addTag []

/-- pandas `sort_values(by=…, ascending=False)`: `nargsort` computes the
ascending argsort of the key column and, because `ascending=False`, reverses
the whole index array.  numpy's default argsort is an introsort that runs
plain insertion sort — which is stable — on arrays of fewer than 16 elements,
the sizes arising in this script's tables; the stable ascending argsort is
the index list ordered by key, ties by index.  The model therefore sorts the
index list by the lexicographic (key, index) order — a total antisymmetric
order, under which the sorted permutation is unique, so any sorting algorithm
computes exactly that stable argsort — and reverses it. -/
def sortValuesDesc {α : Type} (key : α → ℚ) (l : List α) : List α :=
  ((List.insertionSort
      (fun i j : Fin l.length =>
        key (l.get i) < key (l.get j) ∨
          (key (l.get i) = key (l.get j) ∧ (i : ℕ) ≤ (j : ℕ)))
      (List.finRange l.length)).reverse).map l.get

/-- `analyze_hashtags`: flatten the per-post hashtag lists with
`itertools.chain.from_iterable`, count occurrences with `Counter`, and sort
the (Hashtag, Count) table descending by Count. -/
def analyze_hashtags (df : List Post) : List (String × ℕ) :=
  sortValuesDesc (fun e => (e.2 : ℚ)) (counterItems ((df.map Post.hashtags).flatten))

/-- pandas `dt.hour` of the parsed timestamp. -/
def hourOf (p : Post) : ℕ := p.timestamp / 3600 % 24

/-- Arithmetic mean of a list of rationals (pandas `mean` of a group; groups
are never empty). -/
def listMean (l : List ℚ) : ℚ := l.sum / l.length

/-- `analyze_posting_times`: group the `EngagementRate` column by
`Timestamp.dt.hour` (`groupby` emits the groups with keys sorted ascending;
an hour with no post yields no group), take each group's mean, and sort the
resulting table descending by mean engagement.  The input is the table
together with its (finite) engagement column. -/
def analyze_posting_times (df : List (Post × ℚ)) : List (ℕ × ℚ) :=
  sortValuesDesc (fun e => e.2)
    (((List.range 24).filter (fun h => df.any (fun r => hourOf r.1 = h))).map
      (fun h => (h, listMean ((df.filter (fun r => hourOf r.1 = h)).map (fun r => r.2)))))

/-- The static `trending` set hard-coded in `qc_check` (art, pet and travel
tags), in source order; membership is what matters, the script stores it as a
Python set. -/
def trending : List String :=
  ["art", "artist", "artwork", "nailart", "digitalart", "arte", "instaart", "artistsoninstagram",
   "streetart", "artoftheday", "contemporaryart", "fanart", "artofvisuals", "artsy", "abstractart",
   "fineart", "artgallery", "instaartist", "arts", "myart", "artistic", "modernart", "animeart",
   "picsart", "tattooart", "nailsart", "artists", "urbanart", "artistsofinstagram",
   "pet", "pets", "petstagram", "petsofinstagram", "instapet", "petsagram", "petlovers",
   "instapets", "petshop", "mypet", "petphotography", "petlove", "cutepets", "petfriendly",
   "petscorner", "petportrait", "ilovemypet", "happy_pet", "petsofinsta", "picpets", "lovepets",
   "nationalpetday", "worldofcutepets", "petsmart", "petsitting", "petlife", "petsgram",
   "petgrooming", "petofinstagram",
   "travel", "travelgram", "travelphotography", "instatravel", "traveling", "travelling",
   "travelblogger", "traveler", "traveller", "traveltheworld", "igtravel", "travelingram",
   "travelblog", "mytravelgram", "travels", "instatraveling", "traveladdict", "travelphoto",
   "traveldiaries", "travelawesome", "wanderlust", "wanderlusting", "wanderluster",
   "wanderlusters", "wanderlustwednesday", "visualwanderlust", "wanderlustlife",
   "asianwanderlust", "wanderlustvibes", "travellife"]

/-- The five suggestion strings of `qc_check`, in the order the rules are
evaluated. -/
def sugShorten : String := "Consider shortening the caption to keep it concise."

/-- Rule 2's text. -/
def sugBreak : String := "Break long sentences into shorter ones for better readability."

/-- Rule 3's text. -/
def sugLimit : String := "Limit hashtags to 3–5 as recommended by Instagram guidelines."

/-- Rule 4's text. -/
def sugTrending : String := "Consider using trending or niche‑specific hashtags to increase reach."

/-- Rule 5's text. -/
def sugAdd : String := "Add a few relevant hashtags to improve discoverability."

/-- Characters kept by the second substitution
`re.sub(r"[^\w\s\.\!\?]", "", …)`: word characters, whitespace and sentence
terminators. -/
def keepChar (c : Char) : Bool := isWordChar c || c.isWhitespace || isTerminal c

/-- The caption text after the two `re.sub` passes of `qc_check`: hashtag
tokens removed, then every character outside `\w`, `\s`, `.`, `!`, `?`
stripped. -/
def textOnlyOf (caption : String) : List Char :=
  (dropHashtags caption.data).filter keepChar

/-- One row of the `qc_check` report.  The script also rounds the two average
fields to two decimals for display (`round(x, 2)`, an IEEE-float display
operation) and joins the two lists into display strings (with `"None"` for an
empty list); the model keeps the exact rationals and the lists themselves,
which are the values the suggestion rules read. -/
structure QCRow where
  post : String
  word_count : ℕ
  sentence_count : ℕ
  avg_word_length : ℚ
  avg_sentence_length : ℚ
  hashtag_count : ℕ
  trending_hashtags_used : List String
  suggestions : List String
deriving DecidableEq

/-- The body of `qc_check`'s per-row loop: tokenize the stripped caption into
words and sentences, compute the four metrics, collect the lower-cased
hashtags that are trending, and fire the five independent suggestion rules in
their fixed order. -/
def qcRow (p : Post) : QCRow :=
  let hashtags := p.hashtags.map pyLower
  let textOnly := textOnlyOf p.post
  let words := tokenize isWordChar textOnly
  let sentences :=
    ((tokenize (fun c => !(isTerminal c)) textOnly).map pyStripL).filter (fun s => s ≠ [])
  let word_count := words.length
  let sentence_count := sentences.length
  let avg_word_len : ℚ :=
    if word_count = 0 then 0 else ((words.map List.length).sum : ℚ) / word_count
  let avg_sent_len : ℚ :=
    if sentence_count = 0 then 0 else (word_count : ℚ) / sentence_count
  let trending_used := hashtags.filter (fun h => trending.contains h)
  let suggestions :=
    (if word_count > 40 then [sugShorten] else []) ++
    (if avg_sent_len > 20 then [sugBreak] else []) ++
    (if hashtags.length > 5 then [sugLimit] else []) ++
    (if trending_used = [] then [sugTrending] else []) ++
    (if hashtags.length < 2 then [sugAdd] else [])
  { post := p.post
    word_count := word_count
    sentence_count := sentence_count
    avg_word_length := avg_word_len
    avg_sentence_length := avg_sent_len
    hashtag_count := hashtags.length
    trending_hashtags_used := trending_used
    suggestions := suggestions }

/-- `qc_check`: one report row per input row, in order. -/
def qc_check (df : List Post) : List QCRow := df.map qcRow

/-!  Properties of the sorting model. -/

/-- The stable-argsort comparison used by `sortValuesDesc`: lexicographic on
(key, index). -/
def argsortRel {α : Type} (key : α → ℚ) (l : List α) (i j : Fin l.length) : Prop :=
  key (l.get i) < key (l.get j) ∨
    (key (l.get i) = key (l.get j) ∧ (i : ℕ) ≤ (j : ℕ))

instance {α : Type} (key : α → ℚ) (l : List α) : DecidableRel (argsortRel key l) := by
  intro i j
  unfold argsortRel
  infer_instance

instance {α : Type} (key : α → ℚ) (l : List α) :
    IsTotal (Fin l.length) (argsortRel key l) := by
  constructor
  intro a b
  unfold argsortRel
  rcases lt_trichotomy (key (l.get a)) (key (l.get b)) with h | h | h
  · exact Or.inl (Or.inl h)
  · rcases Nat.le_total (a : ℕ) (b : ℕ) with h2 | h2
    · exact Or.inl (Or.inr ⟨h, h2⟩)
    · exact Or.inr (Or.inr ⟨h.symm, h2⟩)
  · exact Or.inr (Or.inl h)

instance {α : Type} (key : α → ℚ) (l : List α) :
    IsTrans (Fin l.length) (argsortRel key l) := by
  constructor
  intro a b c hab hbc
  unfold argsortRel at hab hbc ⊢
  rcases hab with h | ⟨he, hi⟩ <;> rcases hbc with h2 | ⟨he2, hi2⟩
  · exact Or.inl (h.trans h2)
  · exact Or.inl (he2 ▸ h)
  · exact Or.inl (he ▸ h2)
  · exact Or.inr ⟨he.trans he2, hi.trans hi2⟩

/-- `sortValuesDesc` agrees with its definition through `argsortRel`. -/
lemma sortValuesDesc_eq {α : Type} (key : α → ℚ) (l : List α) :
    sortValuesDesc key l =
      ((List.insertionSort (argsortRel key l) (List.finRange l.length)).reverse).map l.get :=
  rfl

/-- The descending sort permutes the table. -/
lemma sortValuesDesc_perm {α : Type} (key : α → ℚ) (l : List α) :
    (sortValuesDesc key l).Perm l := by
  rw [sortValuesDesc_eq]
  refine List.Perm.trans ((List.reverse_perm _).map _) ?_
  refine List.Perm.trans ((List.perm_insertionSort _ _).map _) ?_
  rw [List.finRange_map_get]

/-- Row count is unchanged by the descending sort. -/
lemma sortValuesDesc_length {α : Type} (key : α → ℚ) (l : List α) :
    (sortValuesDesc key l).length = l.length :=
  (sortValuesDesc_perm key l).length_eq

/-- The descending sort is sorted: keys never increase left to right. -/
lemma sortValuesDesc_pairwise_le {α : Type} (key : α → ℚ) (l : List α) :
    (sortValuesDesc key l).Pairwise (fun a b => key b ≤ key a) := by
  rw [sortValuesDesc_eq, List.pairwise_map, List.pairwise_reverse]
  have hs : (List.insertionSort (argsortRel key l) (List.finRange l.length)).Pairwise
      (argsortRel key l) :=
    List.sorted_insertionSort (argsortRel key l) (List.finRange l.length)
  refine hs.imp ?_
  intro i j hij
  rcases hij with h | ⟨he, _⟩
  · exact le_of_lt h
  · exact le_of_eq he

/-- On a duplicate-free table the descending sort is strictly descending in
the lexicographic (key, original index) sense: ties are broken by strictly
larger original index first (reversed stability). -/
lemma sortValuesDesc_pairwise_ties {α : Type} [DecidableEq α] (key : α → ℚ) (l : List α)
    (hnd : l.Nodup) :
    (sortValuesDesc key l).Pairwise (fun a b =>
      key b < key a ∨ (key a = key b ∧ l.indexOf b < l.indexOf a)) := by
  rw [sortValuesDesc_eq, List.pairwise_map, List.pairwise_reverse]
  have hs : (List.insertionSort (argsortRel key l) (List.finRange l.length)).Pairwise
      (argsortRel key l) :=
    List.sorted_insertionSort (argsortRel key l) (List.finRange l.length)
  have hnd2 : (List.insertionSort (argsortRel key l) (List.finRange l.length)).Pairwise
      (fun a b => a ≠ b) :=
    ((List.perm_insertionSort _ _).nodup_iff).mpr (List.nodup_finRange _)
  refine (hs.and hnd2).imp ?_
  rintro i j ⟨hij, hne⟩
  rcases hij with h | ⟨he, hle⟩
  · exact Or.inl h
  · refine Or.inr ⟨he.symm, ?_⟩
    have hvne : (i : ℕ) ≠ (j : ℕ) := fun hv => hne (Fin.ext hv)
    have h1 : l.indexOf (l.get i) = (i : ℕ) := by
      rw [List.get_eq_getElem]
      exact List.indexOf_getElem hnd _ _
    have h2 : l.indexOf (l.get j) = (j : ℕ) := by
      rw [List.get_eq_getElem]
      exact List.indexOf_getElem hnd _ _
    rw [h1, h2]
    omega

/-!  Properties of the Counter model. -/

/-- `addTag` leaves the key list unchanged when the tag is present, and
appends the tag otherwise. -/
lemma addTag_map_fst (acc : List (String × ℕ)) (t : String) :
    (addTag acc t).map Prod.fst =
      if acc.any (fun e => e.1 = t) then acc.map Prod.fst
      else acc.map Prod.fst ++ [t] := by
  unfold addTag
  split
  · rw [List.map_map]
    refine List.map_congr_left ?_
    intro e _
    by_cases h : e.1 = t <;> simp [h]
  · simp


/-- A positive `any` membership test names a key of the accumulator. -/
lemma mem_fst_of_any {acc : List (String × ℕ)} {t : String}
    (hin : acc.any (fun e => e.1 = t) = true) : t ∈ acc.map Prod.fst := by
  obtain ⟨e, he, he1⟩ := List.any_eq_true.mp hin
  exact List.mem_map.mpr ⟨e, he, of_decide_eq_true he1⟩

/-- Bumping the `t`-entries raises the count sum by the number of `t`-keys. -/
lemma addTag_sum_bump (acc : List (String × ℕ)) (t : String) :
    ((acc.map (fun e => if e.1 = t then (e.1, e.2 + 1) else e)).map Prod.snd).sum =
      (acc.map Prod.snd).sum + (acc.map Prod.fst).count t := by
  induction acc with
  | nil => simp
  | cons a as ih =>
    simp only [List.map_cons, List.sum_cons, List.count_cons, List.map_map] at ih ⊢
    by_cases h : a.1 = t
    · simp only [h, if_pos rfl]
      simp only [List.map_map] at *
      simp [ih]
      omega
    · rw [if_neg h]
      simp only [List.map_map] at *
      simp [ih, h]
      omega

/-- The invariant of the Counter fold, after the tags in `processed` have been
inserted: keys are distinct, every entry counts its key's occurrences in
`processed`, the keys are exactly the tags seen, and the counts sum to the
number of insertions. -/
def CounterInv (processed : List String) (acc : List (String × ℕ)) : Prop :=
  (acc.map Prod.fst).Nodup ∧
  (∀ e ∈ acc, e.2 = processed.count e.1) ∧
  (∀ t, t ∈ acc.map Prod.fst ↔ t ∈ processed) ∧
  (acc.map Prod.snd).sum = processed.length

/-- One Counter insertion preserves the invariant. -/
lemma counterInv_addTag {pr : List String} {acc : List (String × ℕ)}
    (h : CounterInv pr acc) (t : String) : CounterInv (pr ++ [t]) (addTag acc t) := by
  obtain ⟨hnd, hcnt, hmem, hsum⟩ := h
  by_cases hin : acc.any (fun e => e.1 = t)
  · have hkeys : (addTag acc t).map Prod.fst = acc.map Prod.fst := by
      rw [addTag_map_fst, if_pos hin]
    refine ⟨hkeys ▸ hnd, ?_, ?_, ?_⟩
    · intro e he
      unfold addTag at he
      rw [if_pos hin] at he
      obtain ⟨e', he', heq⟩ := List.mem_map.mp he
      by_cases h' : e'.1 = t
      · rw [if_pos h'] at heq
        subst heq
        simp only [List.count_append, h']
        rw [hcnt e' he', h']
        simp
      · rw [if_neg h'] at heq
        subst heq
        rw [List.count_append, hcnt e' he']
        simp [h']
    · intro s
      rw [hkeys, hmem s, List.mem_append, List.mem_singleton]
      constructor
      · exact Or.inl
      · rintro (hs | rfl)
        · exact hs
        · exact (hmem s).mp (mem_fst_of_any hin)
    · unfold addTag
      rw [if_pos hin, addTag_sum_bump, hsum]
      rw [List.count_eq_one_of_mem hnd (mem_fst_of_any hin)]
      simp
  · have hnotmem : t ∉ acc.map Prod.fst := by
      intro hmem'
      obtain ⟨e, he, he1⟩ := List.mem_map.mp hmem'
      exact hin (List.any_eq_true.mpr ⟨e, he, decide_eq_true he1⟩)
    have hkeys : (addTag acc t).map Prod.fst = acc.map Prod.fst ++ [t] := by
      rw [addTag_map_fst, if_neg hin]
    refine ⟨?_, ?_, ?_, ?_⟩
    · rw [hkeys]
      simp [List.nodup_append, hnd, hnotmem]
    · intro e he
      unfold addTag at he
      rw [if_neg hin] at he
      rw [List.mem_append, List.mem_singleton] at he
      rcases he with he | rfl
      · rw [List.count_append, hcnt e he]
        have hne : e.1 ≠ t := by
          intro het
          exact hnotmem (het ▸ List.mem_map_of_mem Prod.fst he)
        simp [hne]
      · simp only [List.count_append]
        have h0 : pr.count t = 0 := by
          rw [List.count_eq_zero]
          intro hmem'
          exact hnotmem ((hmem t).mpr hmem')
        simp [h0]
    · intro s
      rw [hkeys]
      simp only [List.mem_append, List.mem_singleton, hmem s]
    · unfold addTag
      rw [if_neg hin]
      simp [hsum]

/-- The Counter fold carries the invariant across any suffix of tags. -/
lemma counterInv_foldl (ts : List String) : ∀ (pr : List String) (acc : List (String × ℕ)),
    CounterInv pr acc → CounterInv (pr ++ ts) (ts.foldl addTag acc) := by
  induction ts with
  | nil => intro pr acc h; simpa using h
  | cons t ts ih =>
    intro pr acc h
    have h2 := ih (pr ++ [t]) (addTag acc t) (counterInv_addTag h t)
    simpa [List.append_assoc] using h2

/-- The invariant holds of `counterItems`. -/
lemma counterInv_counterItems (ts : List String) : CounterInv ts (counterItems ts) := by
  have h := counterInv_foldl ts [] [] ⟨by simp, by simp, by simp, by simp⟩
  simpa [counterItems] using h

/-!  Claim theorems. -/

/-- C1: `compute_engagement` keeps every input row unchanged (the new column
is added alongside), and for every row with `Followers > 0` the added
engagement value is exactly `(Likes + Comments) / Followers`. -/
theorem engagement_rate_exact (df : List Post) :
    (compute_engagement df).map Prod.fst = df ∧
    ∀ r ∈ compute_engagement df, 0 < r.1.followers →
      r.2 = some (((r.1.likes : ℚ) + r.1.comments) / r.1.followers) := by
  constructor
  · simp only [compute_engagement, List.map_map]
    exact List.map_id'' (fun x => rfl) df
  · intro r hr hf
    simp only [compute_engagement, List.mem_map] at hr
    obtain ⟨p, _, rfl⟩ := hr
    simp only [engagementRate]
    rw [if_neg (Nat.pos_iff_ne_zero.mp hf)]

/-- The post of the spec's end-to-end example row. -/
def examplePostC1 : Post :=
  { post := "Loving this #sunset #travel view!", likes := 50, comments := 5,
    followers := 1000, hashtags := ["sunset", "travel"], timestamp := 50400 }

/-- C1 witness: on the example row the engagement value is the exact ratio
(0.055 = 11/200). -/
theorem engagement_rate_exact_witness :
    (examplePostC1, engagementRate examplePostC1).2 =
      some (((examplePostC1.likes : ℚ) + examplePostC1.comments) / examplePostC1.followers) ∧
    engagementRate examplePostC1 = some (11 / 200 : ℚ) := by
  refine ⟨(engagement_rate_exact [examplePostC1]).2 _ (List.mem_singleton.mpr rfl)
    (by decide), ?_⟩
  rw [engagementRate]
  norm_num [examplePostC1]

/-- C2: for a row with `Followers = 0` the engagement value is the explicit
non-finite sentinel (`none` in the model, IEEE `inf`/`NaN` in pandas), never
`some` of an ordinary number. -/
theorem zero_followers_sentinel (df : List Post) :
    ∀ r ∈ compute_engagement df, r.1.followers = 0 →
      r.2 = none ∧ ∀ q : ℚ, r.2 ≠ some q := by
  intro r hr h0
  simp only [compute_engagement, List.mem_map] at hr
  obtain ⟨p, _, rfl⟩ := hr
  simp only [engagementRate]
  rw [if_pos h0]
  exact ⟨rfl, fun q h => Option.noConfusion h⟩

/-- A post with zero followers. -/
def zeroFollowerPost : Post :=
  { post := "x", likes := 3, comments := 1, followers := 0, hashtags := [], timestamp := 0 }

/-- C2 witness: the zero-follower row gets the sentinel. -/
theorem zero_followers_sentinel_witness :
    (zeroFollowerPost, engagementRate zeroFollowerPost).2 = none ∧
    ∀ q : ℚ, (zeroFollowerPost, engagementRate zeroFollowerPost).2 ≠ some q :=
  zero_followers_sentinel [zeroFollowerPost] _ (List.mem_singleton.mpr rfl) rfl

/-- C3: the hashtag frequency table counts occurrences of the exact (trimmed,
case-preserved) tag strings: there is one entry per distinct tag, each entry's
count is the number of occurrences of exactly that string (string equality is
case-sensitive), a tag appears iff it occurs in some post, and the counts sum
to the total number of hashtag occurrences. -/
theorem hashtag_counts_correct (df : List Post) :
    ((analyze_hashtags df).map Prod.snd).sum = ((df.map Post.hashtags).flatten).length ∧
    ((analyze_hashtags df).map Prod.fst).Nodup ∧
    (∀ e ∈ analyze_hashtags df, e.2 = ((df.map Post.hashtags).flatten).count e.1) ∧
    (∀ t, t ∈ (analyze_hashtags df).map Prod.fst ↔ t ∈ (df.map Post.hashtags).flatten) := by
  obtain ⟨hnd, hcnt, hmem, hsum⟩ := counterInv_counterItems ((df.map Post.hashtags).flatten)
  have hperm : (analyze_hashtags df).Perm (counterItems ((df.map Post.hashtags).flatten)) := by
    unfold analyze_hashtags
    exact sortValuesDesc_perm _ _
  refine ⟨?_, ?_, ?_, ?_⟩
  · rw [(hperm.map Prod.snd).sum_eq, hsum]
  · exact ((hperm.map Prod.fst).nodup_iff).mpr hnd
  · intro e he
    exact hcnt e (hperm.mem_iff.mp he)
  · intro t
    rw [(hperm.map Prod.fst).mem_iff, hmem t]

/-- A one-post table in which tag "b" occurs twice and "a" once. -/
def exTableC3 : List Post :=
  [{ post := "", likes := 1, comments := 2, followers := 3,
     hashtags := ["a", "b", "b"], timestamp := 0 }]

/-- C3 witness: the entry ("b", 2) of the frequency table counts exactly the
occurrences of "b". -/
theorem hashtag_counts_correct_witness :
    (("b", 2) : String × ℕ).2 = ((exTableC3.map Post.hashtags).flatten).count ("b", 2).1 :=
  (hashtag_counts_correct exTableC3).2.2.1 ("b", 2) (by with_unfolding_all decide)

/-- Two posts whose tags tie at one occurrence each. -/
def exTableC4 : List Post :=
  [{ post := "", likes := 0, comments := 0, followers := 1, hashtags := ["aaa"], timestamp := 0 },
   { post := "", likes := 0, comments := 0, followers := 1, hashtags := ["bbb"], timestamp := 0 }]

/-- C4 counterexample: "aaa" is first-seen before "bbb" and both counts are 1,
yet the frequency table lists "bbb" first — equal-count tags do not appear in
first-seen order, because `sort_values(ascending=False)` reverses the whole
stable ascending argsort, ties included. -/
theorem hashtag_tie_order_counterexample :
    counterItems ((exTableC4.map Post.hashtags).flatten) = [("aaa", 1), ("bbb", 1)] ∧
    analyze_hashtags exTableC4 = [("bbb", 1), ("aaa", 1)] := by
  with_unfolding_all decide

/-- `indexOf` is the same under any lawful equality test: the one that comes
with decidable equality of pairs (used while sorting) and the component-wise
one (the default on `String × ℕ`) find the same first position. -/
lemma indexOf_decEq_eq_indexOf (l : List (String × ℕ)) (a : String × ℕ) :
    @List.indexOf _ instBEqOfDecidableEq a l = l.indexOf a := by
  induction l with
  | nil => rfl
  | cons x xs ih =>
    have hd : (@BEq.beq _ instBEqOfDecidableEq x a) = decide (x = a) := rfl
    have hb : (@BEq.beq _ instBEqOfDecidableEq x a) = (x == a) := by
      cases h : x == a
      · rw [hd, decide_eq_false (beq_eq_false_iff_ne.mp h)]
      · rw [hd, decide_eq_true (eq_of_beq h)]
    unfold List.indexOf at ih ⊢
    rw [List.findIdx_cons, List.findIdx_cons, hb, ih]

/-- C4 (amended): the frequency table is sorted by descending count, and two
tags with equal counts appear in the reverse of first-seen order (the
later-seen tag first); the entries are a permutation of the first-seen
Counter items. -/
theorem hashtag_sort_desc_ties_reversed (df : List Post) :
    (analyze_hashtags df).Perm (counterItems ((df.map Post.hashtags).flatten)) ∧
    (analyze_hashtags df).Pairwise (fun a b =>
      b.2 < a.2 ∨ (a.2 = b.2 ∧
        (counterItems ((df.map Post.hashtags).flatten)).indexOf b <
          (counterItems ((df.map Post.hashtags).flatten)).indexOf a)) := by
  have hnd : ((counterItems ((df.map Post.hashtags).flatten)).map Prod.fst).Nodup :=
    (counterInv_counterItems _).1
  have hnd2 : (counterItems ((df.map Post.hashtags).flatten)).Nodup := hnd.of_map
  constructor
  · unfold analyze_hashtags
    exact sortValuesDesc_perm _ _
  · unfold analyze_hashtags
    have hp := sortValuesDesc_pairwise_ties (fun e : String × ℕ => (e.2 : ℚ)) _ hnd2
    refine hp.imp ?_
    rintro a b (h | ⟨he, hidx⟩)
    · have h' : ((b.2 : ℚ)) < ((a.2 : ℚ)) := h
      exact Or.inl (by exact_mod_cast h')
    · have he' : ((a.2 : ℚ)) = ((b.2 : ℚ)) := he
      refine Or.inr ⟨by exact_mod_cast he', ?_⟩
      rw [← indexOf_decEq_eq_indexOf, ← indexOf_decEq_eq_indexOf]
      exact hidx

/-- C4 witness: the amended statement applied to the tied table. -/
theorem hashtag_sort_desc_ties_reversed_witness :
    (analyze_hashtags exTableC4).Perm (counterItems ((exTableC4.map Post.hashtags).flatten)) :=
  (hashtag_sort_desc_ties_reversed exTableC4).1

/-- C5: an hour appears in the hourly table iff at least one post's timestamp
falls in that hour (hours are 0–23 by construction of `dt.hour`); each row's
value is the arithmetic mean of the engagement rates of exactly the posts in
its hour; and the rows are sorted by descending mean engagement. -/
theorem posting_times_correct (df : List (Post × ℚ)) :
    (∀ h, h ∈ (analyze_posting_times df).map Prod.fst ↔ ∃ r ∈ df, hourOf r.1 = h) ∧
    (∀ e ∈ analyze_posting_times df,
      e.2 = listMean ((df.filter (fun r => hourOf r.1 = e.1)).map (fun r => r.2))) ∧
    (analyze_posting_times df).Pairwise (fun a b => b.2 ≤ a.2) := by
  have hperm : (analyze_posting_times df).Perm
      (((List.range 24).filter (fun h => df.any (fun r => hourOf r.1 = h))).map
        (fun h => (h, listMean ((df.filter (fun r => hourOf r.1 = h)).map (fun r => r.2))))) := by
    unfold analyze_posting_times
    exact sortValuesDesc_perm _ _
  refine ⟨?_, ?_, ?_⟩
  · intro h
    rw [(hperm.map Prod.fst).mem_iff, List.map_map]
    have hid : (Prod.fst ∘ fun h : ℕ =>
        (h, listMean ((df.filter (fun r => hourOf r.1 = h)).map (fun r => r.2)))) = id := rfl
    rw [hid, List.map_id, List.mem_filter, List.mem_range]
    constructor
    · rintro ⟨-, hany⟩
      obtain ⟨r, hr, hr2⟩ := List.any_eq_true.mp hany
      exact ⟨r, hr, of_decide_eq_true hr2⟩
    · rintro ⟨r, hr, hrh⟩
      refine ⟨?_, List.any_eq_true.mpr ⟨r, hr, decide_eq_true hrh⟩⟩
      rw [← hrh]
      exact Nat.mod_lt _ (by norm_num)
  · intro e he
    obtain ⟨h, _, rfl⟩ := List.mem_map.mp (hperm.mem_iff.mp he)
    rfl
  · unfold analyze_posting_times
    exact sortValuesDesc_pairwise_le _ _

/-- A one-row table with engagement 11/200 posted at 14:00. -/
def exTableC5 : List (Post × ℚ) :=
  [({ post := "p", likes := 50, comments := 5, followers := 1000, hashtags := [],
      timestamp := 50400 }, 11 / 200)]

/-- C5 witness: hour 14's row carries the mean of exactly its posts. -/
theorem posting_times_correct_witness :
    ((14, (11 / 200 : ℚ)) : ℕ × ℚ).2 =
      listMean ((exTableC5.filter
        (fun r => hourOf r.1 = ((14, (11 / 200 : ℚ)) : ℕ × ℚ).1)).map (fun r => r.2)) :=
  (posting_times_correct exTableC5).2.1 (14, 11 / 200) (by with_unfolding_all decide)

/-!  Structure of the quality-check row. -/

/-- The suggestion list is the ordered concatenation of the five
independently-evaluated rules, each tested on the row's own metrics. -/
lemma qcRow_suggestions (p : Post) :
    (qcRow p).suggestions =
      (if (qcRow p).word_count > 40 then [sugShorten] else []) ++
      (if (qcRow p).avg_sentence_length > 20 then [sugBreak] else []) ++
      (if (qcRow p).hashtag_count > 5 then [sugLimit] else []) ++
      (if (qcRow p).trending_hashtags_used = [] then [sugTrending] else []) ++
      (if (qcRow p).hashtag_count < 2 then [sugAdd] else []) := rfl

/-- The matched-trending list is the filter of the lower-cased hashtags. -/
lemma qcRow_trending (p : Post) :
    (qcRow p).trending_hashtags_used =
      (p.hashtags.map pyLower).filter (fun h => trending.contains h) := rfl

/-- The hashtag count is the number of the post's hashtags. -/
lemma qcRow_hashtag_count (p : Post) :
    (qcRow p).hashtag_count = p.hashtags.length := by
  show (p.hashtags.map pyLower).length = p.hashtags.length
  exact List.length_map _ _

/-- The sentence count is the number of nonempty stripped segments between
runs of sentence terminators. -/
lemma qcRow_sentence_count (p : Post) :
    (qcRow p).sentence_count =
      (((tokenize (fun c => !(isTerminal c)) (textOnlyOf p.post)).map pyStripL).filter
        (fun s => s ≠ [])).length := rfl

/-- The word count is the number of word-character runs. -/
lemma qcRow_word_count (p : Post) :
    (qcRow p).word_count = (tokenize isWordChar (textOnlyOf p.post)).length := rfl

/-- Membership in a one-element conditional list. -/
lemma mem_ite_singleton {x a : String} {c : Prop} [Decidable c] :
    (x ∈ if c then [a] else []) ↔ c ∧ x = a := by
  split <;> simp_all

/-- C6: every quality suggestion fires independently, exactly when its metric
crosses its threshold, and the fired suggestions appear in the fixed order
shorten, break-up, limit, use-trending, add-more (the suggestion list is a
sublist of that full ordered list). -/
theorem qc_suggestion_rules (p : Post) :
    ((qcRow p).suggestions.Sublist [sugShorten, sugBreak, sugLimit, sugTrending, sugAdd]) ∧
    (sugShorten ∈ (qcRow p).suggestions ↔ (qcRow p).word_count > 40) ∧
    (sugBreak ∈ (qcRow p).suggestions ↔ (qcRow p).avg_sentence_length > 20) ∧
    (sugLimit ∈ (qcRow p).suggestions ↔ (qcRow p).hashtag_count > 5) ∧
    (sugTrending ∈ (qcRow p).suggestions ↔ (qcRow p).trending_hashtags_used = []) ∧
    (sugAdd ∈ (qcRow p).suggestions ↔ (qcRow p).hashtag_count < 2) := by
  have h12 : sugShorten ≠ sugBreak := by decide
  have h13 : sugShorten ≠ sugLimit := by decide
  have h14 : sugShorten ≠ sugTrending := by decide
  have h15 : sugShorten ≠ sugAdd := by decide
  have h23 : sugBreak ≠ sugLimit := by decide
  have h24 : sugBreak ≠ sugTrending := by decide
  have h25 : sugBreak ≠ sugAdd := by decide
  have h34 : sugLimit ≠ sugTrending := by decide
  have h35 : sugLimit ≠ sugAdd := by decide
  have h45 : sugTrending ≠ sugAdd := by decide
  refine ⟨?_, ?_, ?_, ?_, ?_, ?_⟩
  · rw [qcRow_suggestions]
    have hs : ∀ (c : Prop) [Decidable c] (a : String),
        (if c then [a] else []).Sublist [a] := by
      intro c hc a
      split
      · exact List.Sublist.refl _
      · exact List.nil_sublist _
    exact ((((hs _ _).append (hs _ _)).append (hs _ _)).append (hs _ _)).append (hs _ _)
  · rw [qcRow_suggestions]
    simp [List.mem_append, mem_ite_singleton, h12, h13, h14, h15]
  · rw [qcRow_suggestions]
    simp [List.mem_append, mem_ite_singleton, h12.symm, h23, h24, h25]
  · rw [qcRow_suggestions]
    simp [List.mem_append, mem_ite_singleton, h13.symm, h23.symm, h34, h35]
  · rw [qcRow_suggestions]
    simp [List.mem_append, mem_ite_singleton, h14.symm, h24.symm, h34.symm, h45]
  · rw [qcRow_suggestions]
    simp [List.mem_append, mem_ite_singleton, h15.symm, h25.symm, h35.symm, h45.symm]

/-- A post with a short caption and a single (trending) hashtag. -/
def exPostC6 : Post :=
  { post := "Check this out", likes := 1, comments := 1, followers := 10,
    hashtags := ["travel"], timestamp := 0 }

/-- C6 witness: one hashtag is below the add-more threshold, so that
suggestion fires. -/
theorem qc_suggestion_rules_witness :
    sugAdd ∈ (qcRow exPostC6).suggestions :=
  ((qc_suggestion_rules exPostC6).2.2.2.2.2).mpr (by decide)

/-- C7: the matched-trending list is the ordered sublist of the post's
lower-cased hashtags whose members lie in the static trending set. -/
theorem qc_trending_used (p : Post) :
    ((qcRow p).trending_hashtags_used.Sublist (p.hashtags.map pyLower)) ∧
    (∀ h, h ∈ (qcRow p).trending_hashtags_used ↔
      h ∈ p.hashtags.map pyLower ∧ h ∈ trending) := by
  rw [qcRow_trending]
  constructor
  · exact List.filter_sublist _
  · intro h
    rw [List.mem_filter]
    constructor
    · rintro ⟨hm, hc⟩
      exact ⟨hm, List.elem_iff.mp hc⟩
    · rintro ⟨hm, hc⟩
      exact ⟨hm, List.elem_iff.mpr hc⟩

/-- The spec's round-trip example post: hashtags travel and myrandomtag123. -/
def exPostC7 : Post :=
  { post := "caption", likes := 0, comments := 0, followers := 1,
    hashtags := ["travel", "myrandomtag123"], timestamp := 0 }

/-- C7 witness: on the round-trip example exactly "travel" is matched. -/
theorem qc_trending_used_witness :
    "travel" ∈ (qcRow exPostC7).trending_hashtags_used ∧
    (qcRow exPostC7).trending_hashtags_used = ["travel"] :=
  ⟨((qc_trending_used exPostC7).2 "travel").mpr (by decide), by decide⟩

/-!  The loader's hashtag normalization (C8) and row-count bounds (C9). -/

/-- Neither end of a stripped (nonempty) character list is whitespace. -/
lemma pyStripL_ends (l : List Char) (hne : pyStripL l ≠ []) :
    ((pyStripL l).head hne).isWhitespace = false ∧
    ((pyStripL l).getLast hne).isWhitespace = false := by
  have hmne : (l.dropWhile Char.isWhitespace).reverse.dropWhile Char.isWhitespace ≠ [] := by
    intro h
    apply hne
    unfold pyStripL
    rw [h]
    rfl
  constructor
  · have h1 : (pyStripL l).head hne =
        ((l.dropWhile Char.isWhitespace).reverse.dropWhile Char.isWhitespace).getLast hmne :=
      List.head_reverse _
    rw [h1]
    rw [(List.dropWhile_suffix (l := (l.dropWhile Char.isWhitespace).reverse)
      Char.isWhitespace).getLast hmne]
    rw [List.getLast_reverse]
    exact List.head_dropWhile_not _ _ _
  · have h1 : (pyStripL l).getLast hne =
        ((l.dropWhile Char.isWhitespace).reverse.dropWhile Char.isWhitespace).head hmne :=
      List.getLast_reverse _
    rw [h1]
    exact List.head_dropWhile_not _ _ _

/-- C8 counterexample: the loader splits, trims and drops empties but keeps
the tag's original case: " Travel , beach " parses to ["Travel", "beach"],
and "Travel" is not lowercase-normalized. -/
theorem loader_hashtags_case_counterexample :
    parseHashtags " Travel , beach " = ["Travel", "beach"] ∧
    pyLower "Travel" ≠ "Travel" := by decide

/-- C8 (amended): the loader's output row stores the hashtags as the ordered
list of comma-split pieces, each trimmed and nonempty, with case preserved:
every stored tag is nonempty with no whitespace at either end, and the stored
list is the in-order sublist of all stripped pieces. -/
theorem loader_hashtags_trimmed (s : String) :
    (∀ h ∈ parseHashtags s, h ≠ "" ∧ ∀ hne : h.data ≠ [],
      ((h.data.head hne).isWhitespace = false ∧
        (h.data.getLast hne).isWhitespace = false)) ∧
    (parseHashtags s).Sublist ((splitComma s.data).map (fun l => (⟨pyStripL l⟩ : String))) := by
  constructor
  · intro h hmem
    unfold parseHashtags at hmem
    rw [List.mem_filter] at hmem
    obtain ⟨hmem', hne'⟩ := hmem
    refine ⟨of_decide_eq_true hne', ?_⟩
    obtain ⟨piece, _, rfl⟩ := List.mem_map.mp hmem'
    intro hne
    exact pyStripL_ends piece hne
  · exact List.filter_sublist _

/-- C8 witness: the stored tag "Travel" is nonempty and trimmed. -/
theorem loader_hashtags_trimmed_witness :
    "Travel" ≠ "" ∧ ∀ hne : "Travel".data ≠ [],
      (("Travel".data.head hne).isWhitespace = false ∧
        ("Travel".data.getLast hne).isWhitespace = false) :=
  (loader_hashtags_trimmed " Travel , beach ").1 "Travel" (by decide)

/-- A one-post table with two hashtags. -/
def exTableC9 : List Post :=
  [{ post := "", likes := 0, comments := 0, followers := 1,
     hashtags := ["sunset", "travel"], timestamp := 0 }]

/-- C9 counterexample: the hashtag frequency table of a one-row table has two
rows — a derived table can have more rows than the input table. -/
theorem derived_rows_counterexample :
    exTableC9.length = 1 ∧ (analyze_hashtags exTableC9).length = 2 := by
  with_unfolding_all decide

/-- C9 (amended): the engagement table and the quality report have exactly
the input's row count, the hourly table has at most the input's row count,
and the hashtag frequency table is bounded by the total number of hashtag
occurrences instead (it can exceed the input row count). -/
theorem derived_rows_bounds (df : List Post) (dfE : List (Post × ℚ)) :
    (compute_engagement df).length = df.length ∧
    (qc_check df).length = df.length ∧
    (analyze_posting_times dfE).length ≤ dfE.length ∧
    (analyze_hashtags df).length ≤ ((df.map Post.hashtags).flatten).length := by
  refine ⟨List.length_map _ _, List.length_map _ _, ?_, ?_⟩
  · unfold analyze_posting_times
    rw [sortValuesDesc_length, List.length_map]
    have hnd : ((List.range 24).filter (fun h => dfE.any (fun r => hourOf r.1 = h))).Nodup :=
      (List.nodup_range 24).filter _
    have hsub : ∀ h ∈ (List.range 24).filter (fun h => dfE.any (fun r => hourOf r.1 = h)),
        h ∈ dfE.map (fun r => hourOf r.1) := by
      intro h hh
      rw [List.mem_filter] at hh
      obtain ⟨r, hr, hr2⟩ := List.any_eq_true.mp hh.2
      rw [List.mem_map]
      exact ⟨r, hr, of_decide_eq_true hr2⟩
    calc ((List.range 24).filter (fun h => dfE.any (fun r => hourOf r.1 = h))).length
        = ((List.range 24).filter
            (fun h => dfE.any (fun r => hourOf r.1 = h))).toFinset.card :=
          (List.toFinset_card_of_nodup hnd).symm
      _ ≤ (dfE.map (fun r => hourOf r.1)).toFinset.card :=
          Finset.card_le_card (fun x hx =>
            List.mem_toFinset.mpr (hsub x (List.mem_toFinset.mp hx)))
      _ ≤ (dfE.map (fun r => hourOf r.1)).length := List.toFinset_card_le _
      _ = dfE.length := List.length_map _ _
  · unfold analyze_hashtags
    rw [sortValuesDesc_length]
    obtain ⟨hnd, hcnt, hmem, hsum⟩ := counterInv_counterItems ((df.map Post.hashtags).flatten)
    have hone : ∀ n ∈ (counterItems ((df.map Post.hashtags).flatten)).map Prod.snd, 1 ≤ n := by
      intro n hn
      obtain ⟨e, he, rfl⟩ := List.mem_map.mp hn
      rw [hcnt e he]
      exact List.count_pos_iff.mpr ((hmem e.1).mp (List.mem_map_of_mem _ he))
    calc (counterItems ((df.map Post.hashtags).flatten)).length
        = ((counterItems ((df.map Post.hashtags).flatten)).map Prod.snd).length :=
          (List.length_map _ _).symm
      _ ≤ ((counterItems ((df.map Post.hashtags).flatten)).map Prod.snd).sum :=
          List.length_le_sum_of_one_le _ hone
      _ = ((df.map Post.hashtags).flatten).length := hsum

/-- C9 witness: the amended bounds at the two-hashtag table. -/
theorem derived_rows_bounds_witness :
    (compute_engagement exTableC9).length = exTableC9.length :=
  (derived_rows_bounds exTableC9 []).1

/-!  Sentence splitting without terminators (C10). -/

/-- When every character passes the predicate, the run collector returns the
pending run followed by the whole rest as one run. -/
lemma tokenizeAux_all (p : Char → Bool) (l : List Char) (hall : ∀ c ∈ l, p c = true) :
    ∀ cur : List Char, tokenizeAux p cur l =
      if (cur.reverse ++ l) = [] then [] else [cur.reverse ++ l] := by
  induction l with
  | nil =>
    intro cur
    by_cases h : cur = []
    · simp [tokenizeAux, h]
    · simp [tokenizeAux, h, List.isEmpty_iff]
  | cons c cs ih =>
    intro cur
    have hc : p c = true := hall c (List.mem_cons_self _ _)
    have ih2 := ih (fun d hd => hall d (List.mem_cons_of_mem _ hd)) (c :: cur)
    have hne1 : (c :: cur).reverse ++ cs ≠ [] := by simp
    have hne2 : cur.reverse ++ c :: cs ≠ [] := by simp
    simp only [tokenizeAux, hc, if_true]
    rw [ih2, if_neg hne1, if_neg hne2]
    simp [List.append_assoc]

/-- Tokenizing a nonempty list in which every character passes yields that
one run. -/
lemma tokenize_all (p : Char → Bool) (l : List Char) (hall : ∀ c ∈ l, p c = true)
    (hne : l ≠ []) : tokenize p l = [l] := by
  unfold tokenize
  rw [tokenizeAux_all p l hall []]
  simp [hne]

/-- If no character passes, there are no runs. -/
lemma tokenize_none (p : Char → Bool) (l : List Char) (hall : ∀ c ∈ l, p c = false) :
    tokenize p l = [] := by
  unfold tokenize
  induction l with
  | nil => rfl
  | cons c cs ih =>
    have hc : p c = false := hall c (List.mem_cons_self _ _)
    simp only [tokenizeAux, hc, Bool.false_eq_true, if_false, List.isEmpty_nil, if_true]
    exact ih (fun d hd => hall d (List.mem_cons_of_mem _ hd))

/-- A nonempty tokenization names a passing character. -/
lemma exists_of_tokenize_ne_nil {p : Char → Bool} {l : List Char}
    (h : tokenize p l ≠ []) : ∃ c ∈ l, p c = true := by
  by_contra hno
  push_neg at hno
  exact h (tokenize_none p l (fun c hc => Bool.not_eq_true _ ▸ hno c hc))

/-- A list containing a non-whitespace character does not strip to nothing. -/
lemma pyStripL_ne_nil_of_mem {l : List Char} {c : Char} (hc : c ∈ l)
    (hw : c.isWhitespace = false) : pyStripL l ≠ [] := by
  intro h
  unfold pyStripL at h
  rw [List.reverse_eq_nil_iff, List.dropWhile_eq_nil_iff] at h
  have h2 : ∀ x ∈ l.dropWhile Char.isWhitespace, x.isWhitespace = true := fun x hx =>
    h x (List.mem_reverse.mpr hx)
  rw [← List.takeWhile_append_dropWhile (p := Char.isWhitespace) (l := l),
    List.mem_append] at hc
  rcases hc with hc | hc
  · exact absurd (List.mem_takeWhile_imp hc) (by simp [hw])
  · exact absurd (h2 c hc) (by simp [hw])

/-- A word character is not whitespace. -/
lemma isWordChar_not_whitespace {c : Char} (h : isWordChar c = true) :
    c.isWhitespace = false := by
  by_contra hw
  rw [Bool.not_eq_false] at hw
  simp only [Char.isWhitespace, Bool.or_eq_true, decide_eq_true_eq] at hw
  rcases hw with ((hw | hw) | hw) | hw <;> subst hw <;> exact absurd h (by decide)

/-- C10: when the caption text left after hashtag and special-character
stripping still contains at least one word but no sentence terminator at all,
the whole text is one implicit sentence: `sentence_count = 1`. -/
theorem sentence_count_no_terminators (p : Post)
    (hw : 0 < (qcRow p).word_count)
    (ht : ∀ c ∈ textOnlyOf p.post, isTerminal c = false) :
    (qcRow p).sentence_count = 1 := by
  rw [qcRow_word_count] at hw
  rw [qcRow_sentence_count]
  have hne : tokenize isWordChar (textOnlyOf p.post) ≠ [] := by
    intro h
    rw [h] at hw
    exact absurd hw (by simp)
  obtain ⟨c, hc, hcw⟩ := exists_of_tokenize_ne_nil hne
  have hlne : textOnlyOf p.post ≠ [] := fun h => by
    rw [h] at hc
    exact absurd hc (List.not_mem_nil c)
  have hall : ∀ d ∈ textOnlyOf p.post, (!(isTerminal d)) = true := fun d hd => by
    rw [ht d hd]
    rfl
  rw [tokenize_all _ _ hall hlne]
  have hsne : pyStripL (textOnlyOf p.post) ≠ [] :=
    pyStripL_ne_nil_of_mem hc (isWordChar_not_whitespace hcw)
  simp [hsne]

/-- A 41-word caption with no punctuation at all. -/
def exPostC10 : Post :=
  { post := "one two three four five six seven eight nine ten eleven twelve thirteen fourteen fifteen sixteen seventeen eighteen nineteen twenty one two three four five six seven eight nine ten eleven twelve thirteen fourteen fifteen sixteen seventeen eighteen nineteen twenty extra",
    likes := 0, comments := 0, followers := 1, hashtags := ["travel", "fun"], timestamp := 0 }

set_option maxRecDepth 40000 in
/-- C10 witness: the 41-word punctuation-free caption has one implicit
sentence and triggers the shorten suggestion. -/
theorem sentence_count_no_terminators_witness :
    (qcRow exPostC10).word_count = 41 ∧
    (qcRow exPostC10).sentence_count = 1 ∧
    sugShorten ∈ (qcRow exPostC10).suggestions :=
  ⟨by decide,
   sentence_count_no_terminators exPostC10 (by decide) (by decide),
   by with_unfolding_all decide⟩
